import Mathlib

/-!
Verification of the opt-tar-to-train-service job pipeline (`src/app/app.py`,
`src/app/utils.py`).

The embedding models the persisted job store as a list of job records in
insertion order (the SQLite in-memory table scanned in rowid order), the
Flask intake endpoint (`index`), the name normalization inside `create_job`,
the scheduler tick (`background_job` / `process_jobs`), the build-context
augmentation (`func1`) and the image publication (`func2`).  Python strings
are modelled as `List Char`; Python's `str.format` is modelled by `pyFormat`
(the subset reachable from the templates used in the source).  Processor
and file-save failures are injected as explicit booleans, since the store
effect of a processor is nil and only its success/failure matters.
-/

namespace TarToTrain

/-! ## ASCII character helpers (Python `str` semantics on ASCII data) -/

/-- Membership in `string.ascii_lowercase`. -/
def is_ascii_lower (c : Char) : Bool := 97 ≤ c.toNat && c.toNat ≤ 122

/-- Membership in `string.digits`. -/
def is_ascii_digit (c : Char) : Bool := 48 ≤ c.toNat && c.toNat ≤ 57

/-- Membership in `[A-Za-z]`. -/
def is_ascii_alpha (c : Char) : Bool :=
  (65 ≤ c.toNat && c.toNat ≤ 90) || (97 ≤ c.toNat && c.toNat ≤ 122)

/-- ASCII whitespace, the characters Python's `str.split()` splits on
(after non-ASCII characters have been discarded). -/
def is_python_ws (c : Char) : Bool := c.toNat ∈ [9, 10, 11, 12, 13, 32]

/-- Python `str.lower` on one ASCII character. -/
def py_lower (c : Char) : Char :=
  if 65 ≤ c.toNat ∧ c.toNat ≤ 90 then Char.ofNat (c.toNat + 32) else c

/-! ## `werkzeug.utils.secure_filename`

`create_job` first calls werkzeug's `secure_filename`.  Its steps are:
NFKD-normalize, `encode('ascii','ignore')`, replace `os.sep` (`/`) by a
space, `"_".join(filename.split())`, delete every character outside
`[A-Za-z0-9_.-]`, and finally `strip("._")`.  The NFKD normalization is not
modelled (it is the identity on ASCII input, and characters it could fold
to ASCII are otherwise discarded by the ASCII encode); the remaining steps
are modelled one-for-one below. -/

/-- Python `encode('ascii', 'ignore').decode('ascii')`: drop non-ASCII. -/
def ascii_encode_ignore (l : List Char) : List Char :=
  l.filter (fun c => c.toNat < 128)

/-- Replace the path separator `/` by a space (`os.path.altsep` is `None`
on posix, so only `os.sep` is replaced). -/
def replace_sep (l : List Char) : List Char :=
  l.map (fun c => if c = '/' then ' ' else c)

/-- Python `"_".join(filename.split())`: split on runs of whitespace,
discard empty parts, join with `_`. -/
def underscore_join (l : List Char) : List Char :=
  List.intercalate ['_'] ((List.splitOnP is_python_ws l).filter (fun w => w ≠ []))

/-- The substitution `_filename_ascii_strip_re.sub("", ...)`: delete every
character outside `[A-Za-z0-9_.-]`. -/
def regex_keep (c : Char) : Bool :=
  is_ascii_alpha c || is_ascii_digit c || c = '_' || c = '.' || c = '-'

def regex_strip (l : List Char) : List Char := l.filter regex_keep

/-- Python `strip("._")`: remove leading and trailing `.` and `_`. -/
def is_dot_or_underscore (c : Char) : Bool := c = '.' || c = '_'

def strip_dot_underscore (l : List Char) : List Char :=
  ((l.dropWhile is_dot_or_underscore).reverse.dropWhile is_dot_or_underscore).reverse

def secure_filename (l : List Char) : List Char :=
  strip_dot_underscore (regex_strip (underscore_join (replace_sep (ascii_encode_ignore l))))

/-! ## Name normalization inside `create_job` (app.py lines 95-120) -/

/-- `allowed_characters = string.ascii_lowercase + string.digits + '_-'`. -/
def allowed_character (c : Char) : Bool :=
  is_ascii_lower c || is_ascii_digit c || c = '_' || c = '-'

/-- The loop `for p in problem_chars: filename = filename.replace(p, '_')`:
every character outside the allow-list is replaced by `_` (replacing each
problem character everywhere is the pointwise map, and `_` itself is
allowed, so the loop introduces no new problem characters). -/
def replace_problem_chars (l : List Char) : List Char :=
  l.map (fun c => if allowed_character c then c else '_')

/-- `if filename.endswith('_'): filename = filename + 's'`. -/
def append_s_if_trailing_underscore (l : List Char) : List Char :=
  if l.getLast? = some '_' then l ++ ['s'] else l

/-- `if filename.endswith('.tar'): filename = '.'.join(filename.split('.')[:-1])`.
Rejoining all dot-separated components but the last cuts the string at its
last dot; when the string ends with `.tar` that is exactly dropping the
final four characters. -/
def strip_tar_suffix (l : List Char) : List Char :=
  if List.isSuffixOf ".tar".data l then l.take (l.length - 4) else l

/-- `if not filename.startswith("train_"): filename = "train_" + filename`. -/
def prepend_train (l : List Char) : List Char :=
  if List.isPrefixOf "train_".data l then l else "train_".data ++ l

/-- The full filename normalization performed by `create_job`, in source
order: `secure_filename`, `.lower()`, problem-character replacement,
trailing-underscore fix, `.tar` split, `train_` namespace. -/
def normalize_chars (l : List Char) : List Char :=
  prepend_train (strip_tar_suffix (append_s_if_trailing_underscore
    (replace_problem_chars ((secure_filename l).map py_lower))))

def create_job_name (s : String) : String := ⟨normalize_chars s.data⟩

/-! ## Python `str.format`

The source formats strings with `str.format`; `pyFormat` models the
fragment of CPython's format-string parser these calls can reach: literal
text, `\x7b\x7b` / `\x7d\x7d` escapes, automatic (`\x7b\x7d`) and manual
numeric replacement fields, and the errors raised for a keyword field name
with no matching keyword argument (`KeyError`) and for unbalanced braces
(`ValueError`).  Attribute/index access and mixing of automatic and manual
numbering are never reached by the templates in the source. -/

def lbrace : Char := Char.ofNat 123

def rbrace : Char := Char.ofNat 125

/-- Scan a replacement field up to the matching `\x7d`, tracking the brace
nesting depth inside the format-spec; returns the field contents and the
rest of the template. -/
def split_at_matching_rbrace : List Char → Nat → Option (List Char × List Char)
  | [], _ => none
  | c :: rest, d =>
    if c = rbrace then
      if d = 0 then some ([], rest)
      else (split_at_matching_rbrace rest (d - 1)).map (fun pr => (c :: pr.1, pr.2))
    else if c = lbrace then
      (split_at_matching_rbrace rest (d + 1)).map (fun pr => (c :: pr.1, pr.2))
    else
      (split_at_matching_rbrace rest d).map (fun pr => (c :: pr.1, pr.2))

/-- The arg_name of a replacement field: everything before the conversion
(`!`), the format spec (`:`), or an attribute/index access (`.`/`[`). -/
def field_arg_name (field : List Char) : List Char :=
  field.takeWhile (fun c => !(c = ':' || c = '!' || c = '.' || c = '['))

def decimal_value (l : List Char) : Nat :=
  l.foldl (fun n c => n * 10 + (c.toNat - 48)) 0

def pyFormatCore : Nat → List Char → List String → Except String (List Char)
  | 0, _, _ => .error "ValueError: format recursion limit"
  | _ + 1, [], _ => .ok []
  | fuel + 1, c :: rest, args =>
    if c = lbrace then
      match rest with
      | c2 :: rest2 =>
        if c2 = lbrace then
          (pyFormatCore fuel rest2 args).map (fun r => lbrace :: r)
        else
          match split_at_matching_rbrace rest 0 with
          | none => .error "ValueError: Single open brace encountered in format string"
          | some (field, rest') =>
            let name := field_arg_name field
            if name.isEmpty then
              match args with
              | [] => .error "IndexError: Replacement index out of range"
              | a :: args' => (pyFormatCore fuel rest' args').map (fun r => a.data ++ r)
            else if name.all is_ascii_digit then
              match args[decimal_value name]? with
              | none => .error "IndexError: Replacement index out of range"
              | some a => (pyFormatCore fuel rest' args).map (fun r => a.data ++ r)
            else
              .error ("KeyError: " ++ String.mk name)
      | [] => .error "ValueError: Single open brace encountered in format string"
    else if c = rbrace then
      match rest with
      | c2 :: rest2 =>
        if c2 = rbrace then
          (pyFormatCore fuel rest2 args).map (fun r => rbrace :: r)
        else .error "ValueError: Single closing brace encountered in format string"
      | [] => .error "ValueError: Single closing brace encountered in format string"
    else
      (pyFormatCore fuel rest args).map (fun r => c :: r)

/-- `template.format(*args)`.  Every recursive call of the parser consumes
at least one template character, so `length + 1` units of fuel suffice. -/
def pyFormat (template : String) (args : List String) : Except String String :=
  (pyFormatCore (template.data.length + 1) template.data args).map String.mk

/-! ## Job state and job records (app.py lines 57-90) -/

inductive JobState where
  | JOB_SUBMTTED
  | TAR_SAVED
  | DOCKERFILE_BEING_ADDED
  | DOCKERFILE_ADDED
  | TRAIN_BEING_CREATED
  | TRAIN_SUBMITTED
deriving DecidableEq, Repr

/-- The numeric value of each state in the source enum; also its position
in the fixed six-state pipeline order. -/
def JobState.idx : JobState → Nat
  | .JOB_SUBMTTED => 0
  | .TAR_SAVED => 1
  | .DOCKERFILE_BEING_ADDED => 2
  | .DOCKERFILE_ADDED => 3
  | .TRAIN_BEING_CREATED => 4
  | .TRAIN_SUBMITTED => 5

structure TrainArchiveJob where
  id : Nat
  job_directory : String
  file_name : String
  state : JobState
deriving DecidableEq, Repr

def TAR_FILEPATH : String := "/tmp/jobs"

def FILENAME : String := "file"

/-- `os.path.abspath(os.path.join(self.job_directory, str(self.id) + ".tar"))`;
`job_directory` is always the absolute `/tmp/jobs`, so `abspath` is the
plain join. -/
def TrainArchiveJob.to_filepath (j : TrainArchiveJob) : String :=
  j.job_directory ++ "/" ++ toString j.id ++ ".tar"

/-- The persisted table, in insertion (rowid) order. -/
abbrev Store := List TrainArchiveJob

structure DB where
  store : Store
  next_id : Nat
deriving DecidableEq, Repr

/-- The empty in-memory database; SQLite assigns ids from 1. -/
def initDB : DB := { store := [], next_id := 1 }

/-- `create_job` (app.py lines 95-130): normalize the filename, insert a
new row in state `JOB_SUBMTTED`, commit, return the job. -/
def create_job (db : DB) (filename : String) : TrainArchiveJob × DB :=
  let job : TrainArchiveJob :=
    { id := db.next_id
      job_directory := TAR_FILEPATH
      file_name := create_job_name filename
      state := .JOB_SUBMTTED }
  (job, { store := db.store ++ [job], next_id := db.next_id + 1 })

/-- `update_job_state` (app.py lines 133-140): overwrite the state of the
row with the job's id and commit. -/
def update_job_state (s : Store) (jid : Nat) (st : JobState) : Store :=
  s.map (fun j => if j.id = jid then { j with state := st } else j)

/-- `db.session.query(TrainArchiveJob).filter_by(state=state).first()`:
first row in table order whose state matches. -/
def findFirst (s : Store) (st : JobState) : Option TrainArchiveJob :=
  s.find? (fun j => j.state = st)

/-! ## HTTP responses and the intake endpoint (app.py lines 146-183) -/

structure IntakeResponse where
  body : String
  status : Nat
deriving DecidableEq, Repr

/-- The template `'\x7b"success": "false", "msg": "\x7b\x7d"\x7d'` used by
`failure`. -/
def failure_template : String := "\x7b\"success\": \"false\", \"msg\": \"\x7b\x7d\"\x7d"

/-- `failure(msg)`: format the body, return it with status 201.  A
formatting exception propagates as `.error`. -/
def failure (msg : String) : Except String IntakeResponse :=
  (pyFormat failure_template [msg]).map (fun body => { body := body, status := 201 })

/-- The module-level `SUCCESS` response (no formatting involved). -/
def SUCCESS : IntakeResponse := { body := "\x7b\"success\": \"true\"\x7d", status := 200 }

def py_lower_string (s : String) : String := ⟨s.data.map py_lower⟩

/-- The characters after the last `.`, i.e. Python `rsplit('.', 1)[1]`
(meaningful when the list contains a dot). -/
def after_last_dot (l : List Char) : List Char :=
  (l.reverse.takeWhile (fun c => c ≠ '.')).reverse

/-- `allowed_file` (utils.py): `'.' in filename and
filename.rsplit('.', 1)[1].lower() in [ext]`.  `rsplit('.', 1)[1]` is the
part after the last dot. -/
def allowed_file (filename : String) (ext : String) : Bool :=
  filename.data.contains '.' && ((after_last_dot filename.data).map py_lower == ext.data)

/-- An upload request: whether the multipart field `file` is present at
all, and the submitted filename (empty when no file was selected). -/
structure IntakeRequest where
  has_file_field : Bool
  filename : String
deriving DecidableEq, Repr

structure IndexResult where
  response : Except String IntakeResponse
  db : DB
  snaps : List Store
deriving Repr

def missing_field_template : String := "Field with name \x7b\x7d was not submitted"

/-- The `index` route (app.py lines 157-183).  `response` is `.error e`
when the handler raises an unhandled exception `e` (the framework then
answers 500); `snaps` lists the persisted store after each commit.  The
werkzeug `FileStorage` is truthy exactly when its filename is non-empty,
so `if file:` is modelled as `filename ≠ ""` (which makes the inner
`file.filename == ''` check unreachable, as in the source).  `save_ok`
injects success or failure of `file.save(filepath)`. -/
def index (req : IntakeRequest) (save_ok : Bool) (db : DB) : IndexResult :=
  if req.has_file_field = false then
    { response := (pyFormat missing_field_template [FILENAME]).bind failure
      db := db, snaps := [] }
  else if req.filename ≠ "" then
    if req.filename = "" then
      { response := failure "No file was selected", db := db, snaps := [] }
    else if allowed_file req.filename "tar" then
      let jobdb := create_job db req.filename
      if save_ok then
        let s2 := update_job_state jobdb.2.store jobdb.1.id .TAR_SAVED
        { response := .ok SUCCESS
          db := { store := s2, next_id := jobdb.2.next_id }
          snaps := [jobdb.2.store, s2] }
      else
        { response := .error "IOError: saving the uploaded archive failed"
          db := jobdb.2, snaps := [jobdb.2.store] }
    else
      { response := failure "No file was selected or file is not a .tar file."
        db := db, snaps := [] }
  else
    { response := failure "No file was selected or file is not a .tar file."
      db := db, snaps := [] }

/-! ## The scheduler (app.py lines 189-253) -/

structure StageRule where
  from_state : JobState
  while_state : JobState
  to_state : JobState
deriving DecidableEq, Repr

/-- `(func1, TAR_SAVED, DOCKERFILE_BEING_ADDED, DOCKERFILE_ADDED)`. -/
def add_dockerfile_rule : StageRule :=
  { from_state := .TAR_SAVED
    while_state := .DOCKERFILE_BEING_ADDED
    to_state := .DOCKERFILE_ADDED }

/-- `(func2, DOCKERFILE_ADDED, TRAIN_BEING_CREATED, TRAIN_SUBMITTED)`. -/
def build_train_rule : StageRule :=
  { from_state := .DOCKERFILE_ADDED
    while_state := .TRAIN_BEING_CREATED
    to_state := .TRAIN_SUBMITTED }

def stage_rules : List StageRule := [add_dockerfile_rule, build_train_rule]

structure RuleRun where
  snaps : List Store
  store : Store
  ok : Bool
deriving DecidableEq, Repr

/-- One iteration of the loop in `process_jobs` for one rule: select the
first job in `from_state`; if found, commit `while_state`, run the
processor (whose success is `proc_ok`; it does not touch the store), and
on success commit `to_state`.  `ok = false` means the processor raised, so
the loop aborts. -/
def runRule (r : StageRule) (proc_ok : Bool) (s : Store) : RuleRun :=
  match findFirst s r.from_state with
  | none => { snaps := [], store := s, ok := true }
  | some j =>
    let s1 := update_job_state s j.id r.while_state
    if proc_ok then
      let s2 := update_job_state s1 j.id r.to_state
      { snaps := [s1, s2], store := s2, ok := true }
    else
      { snaps := [s1], store := s1, ok := false }

/-- `process_jobs` (app.py lines 189-207): the rules in configured order;
an exception raised by a processor propagates, skipping the remaining
rules of that tick. -/
def process_jobs : List (StageRule × Bool) → Store → List Store × Store
  | [], s => ([], s)
  | (r, ok) :: rest, s =>
    let rr := runRule r ok s
    if rr.ok then
      let pr := process_jobs rest rr.store
      (rr.snaps ++ pr.1, pr.2)
    else
      (rr.snaps, rr.store)

/-- `background_job` (app.py lines 210-238): one scheduler tick running
the two stage rules; `ok1`/`ok2` inject success or failure of `func1` and
`func2`. -/
def background_job (ok1 ok2 : Bool) (s : Store) : List Store × Store :=
  process_jobs [(add_dockerfile_rule, ok1), (build_train_rule, ok2)] s

/-! ## System traces -/

/-- The operations that mutate the store: an intake request and a
scheduler tick. -/
inductive SysOp where
  | intake (req : IntakeRequest) (save_ok : Bool)
  | tick (ok1 ok2 : Bool)
deriving DecidableEq, Repr

def runOp (db : DB) : SysOp → DB × List Store
  | .intake req save_ok =>
    let r := index req save_ok db
    (r.db, r.snaps)
  | .tick ok1 ok2 =>
    let pr := background_job ok1 ok2 db.store
    ({ store := pr.2, next_id := db.next_id }, pr.1)

/-- Run a sequence of operations from a database, collecting the store
snapshot after every commit. -/
def runOps : DB → List SysOp → DB × List Store
  | db, [] => (db, [])
  | db, op :: ops =>
    let r1 := runOp db op
    let r2 := runOps r1.1 ops
    (r2.1, r1.2 ++ r2.2)

def runDB (ops : List SysOp) : DB := (runOps initDB ops).1

/-- All persisted stores of an execution, in order, starting from the
empty store. -/
def traceStores (ops : List SysOp) : List Store :=
  initDB.store :: (runOps initDB ops).2

def jobStateAt (db : DB) (jid : Nat) : Option JobState :=
  (db.store.find? (fun j => j.id = jid)).map (fun j => j.state)

/-! ## The build-context augmenter (`func1`, app.py lines 214-221) -/

structure TarEntry where
  entry_name : String
  content : List Nat
deriving DecidableEq, Repr

abbrev TarArchive := List TarEntry

/-- `tarfile.open(path, 'a')` followed by `tar.add(DOCKERFILE,
arcname='Dockerfile')`: appending to a tar archive adds one entry named
`Dockerfile` holding the descriptor bytes after the existing entries. -/
def func1_add_dockerfile (dockerfile : List Nat) (archive : TarArchive) : TarArchive :=
  archive ++ [{ entry_name := "Dockerfile", content := dockerfile }]

/-! ## The image publisher (`func2`, app.py lines 223-234) -/

inductive EngineCall where
  | build (context_path : String) (tag : String)
  | push (tag : String)
deriving DecidableEq, Repr

/-- The template `'\x7b\x7d/\x7b\x7d:immediate'` used for the repository
tag. -/
def tag_template : String := "\x7b\x7d/\x7b\x7d:immediate"

/-- The container-engine requests issued by `func2` for a job: format the
repository tag from the registry and the job's canonical name, build the
image from the job's archive with that tag, push that tag. -/
def func2_calls (registry : String) (j : TrainArchiveJob) : Except String (List EngineCall) :=
  (pyFormat tag_template [registry, j.file_name]).map
    (fun repository => [.build j.to_filepath repository, .push repository])

end TarToTrain

namespace TarToTrain

/-! ## Basic store lemmas -/

/-- Store ids are strictly increasing in table order (SQLite rowid order;
ids are assigned by an increasing counter). -/
def IdsStrictSorted (s : Store) : Prop :=
  s.Pairwise (fun a b => a.id < b.id)

def IdsBelow (s : Store) (n : Nat) : Prop := ∀ j ∈ s, j.id < n

/-- No job rests in `DOCKERFILE_ADDED` between operations: within any tick
the build rule immediately drains the at most one job the dockerfile rule
promoted there. -/
def NoDA (s : Store) : Prop := ∀ j ∈ s, j.state ≠ .DOCKERFILE_ADDED

/-- The reachability invariant of the persisted database. -/
def Inv (db : DB) : Prop :=
  IdsStrictSorted db.store ∧ IdsBelow db.store db.next_id ∧ NoDA db.store

theorem inv_initDB : Inv initDB := by
  refine ⟨List.Pairwise.nil, ?_, ?_⟩ <;> intro j hj <;> simp [initDB] at hj

theorem ids_nodup {s : Store} (h : IdsStrictSorted s) :
    (s.map (fun j => j.id)).Nodup :=
  List.pairwise_map.mpr (h.imp fun hab => Nat.ne_of_lt hab)

/-- With duplicate-free ids, two store members with the same id are the
same record. -/
theorem eq_of_mem_of_id_eq {s : Store} {a b : TrainArchiveJob}
    (hnd : (s.map (fun j => j.id)).Nodup)
    (ha : a ∈ s) (hb : b ∈ s) (hid : a.id = b.id) : a = b :=
  List.inj_on_of_nodup_map hnd ha hb hid

theorem mem_update_of_ne {s : Store} {j : TrainArchiveJob} {jid : Nat} {st : JobState}
    (h : j ∈ s) (hne : j.id ≠ jid) : j ∈ update_job_state s jid st := by
  unfold update_job_state
  have := List.mem_map_of_mem (fun k => if k.id = jid then { k with state := st } else k) h
  simpa [if_neg hne] using this

theorem mem_update_set {s : Store} {j : TrainArchiveJob} {jid : Nat} {st : JobState}
    (h : j ∈ s) (heq : j.id = jid) :
    { j with state := st } ∈ update_job_state s jid st := by
  unfold update_job_state
  have := List.mem_map_of_mem (fun k => if k.id = jid then { k with state := st } else k) h
  simpa [if_pos heq] using this

theorem of_mem_update {s : Store} {k : TrainArchiveJob} {jid : Nat} {st : JobState}
    (h : k ∈ update_job_state s jid st) :
    ∃ j ∈ s, k = if j.id = jid then { j with state := st } else j := by
  unfold update_job_state at h
  obtain ⟨j, hj, hk⟩ := List.mem_map.mp h
  exact ⟨j, hj, hk.symm⟩

theorem of_mem_update_ne {s : Store} {k : TrainArchiveJob} {jid : Nat} {st : JobState}
    (h : k ∈ update_job_state s jid st) (hne : k.id ≠ jid) : k ∈ s := by
  obtain ⟨j, hj, hk⟩ := of_mem_update h
  by_cases hid : j.id = jid
  · rw [hk, if_pos hid] at hne
    exact absurd hid hne
  · rwa [hk, if_neg hid]

theorem state_of_mem_update {s : Store} {k : TrainArchiveJob} {jid : Nat} {st : JobState}
    (h : k ∈ update_job_state s jid st) (heq : k.id = jid) : k.state = st := by
  obtain ⟨j, hj, hk⟩ := of_mem_update h
  by_cases hid : j.id = jid
  · rw [hk, if_pos hid]
  · rw [hk, if_neg hid] at heq
    exact absurd heq hid

theorem ids_update (s : Store) (jid : Nat) (st : JobState) :
    (update_job_state s jid st).map (fun j => j.id) = s.map (fun j => j.id) := by
  unfold update_job_state
  rw [List.map_map]
  refine List.map_congr_left fun j _ => ?_
  by_cases hid : j.id = jid <;> simp [hid]

theorem sorted_of_ids_eq {s t : Store}
    (h : t.map (fun j => j.id) = s.map (fun j => j.id))
    (hs : IdsStrictSorted s) : IdsStrictSorted t := by
  have hpair : (t.map (fun j => j.id)).Pairwise (· < ·) := by
    rw [h]
    exact List.pairwise_map.mpr hs
  exact List.pairwise_map.mp hpair

theorem below_of_ids_eq {s t : Store} {n : Nat}
    (h : t.map (fun j => j.id) = s.map (fun j => j.id))
    (hs : IdsBelow s n) : IdsBelow t n := by
  intro j hj
  have : j.id ∈ t.map (fun j => j.id) := List.mem_map_of_mem _ hj
  rw [h] at this
  obtain ⟨k, hk, hkj⟩ := List.mem_map.mp this
  rw [← hkj]
  exact hs k hk

theorem sorted_update {s : Store} {jid : Nat} {st : JobState}
    (h : IdsStrictSorted s) : IdsStrictSorted (update_job_state s jid st) :=
  sorted_of_ids_eq (ids_update s jid st) h

/-- `findFirst` soundness: the returned job is a member and has the
queried state. -/
theorem findFirst_sound {s : Store} {st : JobState} {j : TrainArchiveJob}
    (h : findFirst s st = some j) : j ∈ s ∧ j.state = st := by
  unfold findFirst at h
  refine ⟨List.mem_of_find?_eq_some h, ?_⟩
  have := List.find?_some h
  simpa using this

theorem findFirst_none {s : Store} {st : JobState}
    (h : findFirst s st = none) : ∀ k ∈ s, k.state ≠ st := by
  unfold findFirst at h
  intro k hk
  have := List.find?_eq_none.mp h k hk
  simpa using this

theorem findFirst_isSome {s : Store} {st : JobState} {j : TrainArchiveJob}
    (hj : j ∈ s) (hst : j.state = st) : findFirst s st ≠ none := by
  intro h
  exact findFirst_none h j hj hst

/-- On an id-sorted store, `first()` returns the matching job with the
smallest id. -/
theorem findFirst_min {s : Store} {st : JobState} {j : TrainArchiveJob}
    (hsort : IdsStrictSorted s) (h : findFirst s st = some j) :
    ∀ k ∈ s, k.state = st → j.id ≤ k.id := by
  induction s with
  | nil => simp [findFirst] at h
  | cons a t ih =>
    unfold IdsStrictSorted at hsort
    rw [List.pairwise_cons] at hsort
    unfold findFirst at h
    rw [List.find?_cons] at h
    by_cases ha : a.state = st
    · simp only [decide_eq_true ha] at h
      cases h
      intro k hk hkst
      rcases List.mem_cons.mp hk with rfl | hkt
      · exact Nat.le_refl _
      · exact Nat.le_of_lt (hsort.1 k hkt)
    · simp only [decide_eq_false ha] at h
      intro k hk hkst
      rcases List.mem_cons.mp hk with rfl | hkt
      · exact absurd hkst ha
      · exact ih hsort.2 h k hkt hkst

/-! ## The forward-step relation

`StepOK s s'` says: between two consecutive persisted stores, every job
keeps its state or moves to the immediate successor in the six-state
pipeline order.  A trace whose consecutive stores are all related by
`StepOK` therefore contains no skipped state and no reversal for any job. -/

def StepOK (s s' : Store) : Prop :=
  ∀ j' ∈ s', ∀ j ∈ s, j.id = j'.id → j'.state = j.state ∨ j'.state.idx = j.state.idx + 1

theorem stepOK_update {s : Store} {jid : Nat} {st : JobState}
    (hnd : (s.map (fun j => j.id)).Nodup)
    (h : ∀ j ∈ s, j.id = jid → st.idx = j.state.idx + 1) :
    StepOK s (update_job_state s jid st) := by
  intro j' hj' j hj hid
  obtain ⟨k, hk, hjk⟩ := of_mem_update hj'
  by_cases hkid : k.id = jid
  · rw [hjk, if_pos hkid]
    right
    have : j.id = jid := by
      rw [hid, hjk, if_pos hkid]
      exact hkid
    exact h j hj this
  · rw [hjk, if_neg hkid] at hid ⊢
    left
    rw [eq_of_mem_of_id_eq hnd hj hk hid]

theorem stepOK_append {s : Store} {j : TrainArchiveJob}
    (hnd : (s.map (fun k => k.id)).Nodup)
    (hfresh : ∀ k ∈ s, k.id ≠ j.id) :
    StepOK s (s ++ [j]) := by
  intro j' hj' k hk hid
  rcases List.mem_append.mp hj' with hj's | hj'j
  · left
    rw [eq_of_mem_of_id_eq hnd hj's hk hid.symm]
  · rw [List.mem_singleton.mp hj'j] at hid
    exact absurd hid (hfresh k hk)

/-- Glue two step chains: a chain from `a` through `l1` ending at `b`,
followed by a chain from `b` through `l2`. -/
theorem chain'_cons_append {α : Type} {R : α → α → Prop} {a b : α} {l1 l2 : List α}
    (h1 : List.Chain' R (a :: l1)) (hb : l1.getLastD a = b)
    (h2 : List.Chain' R (b :: l2)) :
    List.Chain' R (a :: (l1 ++ l2)) := by
  induction l1 generalizing a with
  | nil =>
    simp only [List.getLastD] at hb
    subst hb
    exact h2
  | cons x t ih =>
    rw [List.getLastD_cons] at hb
    rcases List.chain'_cons.mp h1 with ⟨hax, hxt⟩
    exact List.chain'_cons.mpr ⟨hax, ih hxt hb⟩

theorem getLastD_append_eq {α : Type} (l1 l2 : List α) (a : α) :
    (l1 ++ l2).getLastD a = l2.getLastD (l1.getLastD a) := by
  induction l1 generalizing a with
  | nil => rfl
  | cons x t ih => rw [List.cons_append, List.getLastD_cons, List.getLastD_cons, ih]

/-! ## Per-rule and per-tick lemmas -/

theorem rule_idx_while {r : StageRule} (hr : r ∈ stage_rules) :
    r.while_state.idx = r.from_state.idx + 1 := by
  rcases (by simpa [stage_rules] using hr : r = add_dockerfile_rule ∨ r = build_train_rule)
      with rfl | rfl <;> decide

theorem rule_idx_to {r : StageRule} (hr : r ∈ stage_rules) :
    r.to_state.idx = r.while_state.idx + 1 := by
  rcases (by simpa [stage_rules] using hr : r = add_dockerfile_rule ∨ r = build_train_rule)
      with rfl | rfl <;> decide

theorem ids_runRule (r : StageRule) (ok : Bool) (s : Store) :
    (runRule r ok s).store.map (fun j => j.id) = s.map (fun j => j.id) := by
  unfold runRule
  cases h : findFirst s r.from_state with
  | none => rfl
  | some j =>
    by_cases hok : ok = true
    · simp only [hok, if_true, ids_update]
    · simp only [Bool.not_eq_true] at hok
      simp only [hok, Bool.false_eq_true, if_false, ids_update]

theorem chain_runRule {r : StageRule} {ok : Bool} {s : Store}
    (hr : r ∈ stage_rules) (hsort : IdsStrictSorted s) :
    List.Chain' StepOK (s :: (runRule r ok s).snaps) ∧
      (runRule r ok s).snaps.getLastD s = (runRule r ok s).store := by
  have hnd := ids_nodup hsort
  unfold runRule
  cases h : findFirst s r.from_state with
  | none => exact ⟨List.chain'_singleton s, rfl⟩
  | some j =>
    obtain ⟨hjmem, hjst⟩ := findFirst_sound h
    have step1 : StepOK s (update_job_state s j.id r.while_state) := by
      refine stepOK_update hnd fun k hk hkid => ?_
      rw [eq_of_mem_of_id_eq hnd hk hjmem hkid, hjst]
      exact rule_idx_while hr
    by_cases hok : ok = true
    · have hnd1 : ((update_job_state s j.id r.while_state).map (fun j => j.id)).Nodup := by
        rw [ids_update]; exact hnd
      have step2 : StepOK (update_job_state s j.id r.while_state)
          (update_job_state (update_job_state s j.id r.while_state) j.id r.to_state) := by
        refine stepOK_update hnd1 fun k hk hkid => ?_
        rw [state_of_mem_update hk hkid]
        exact rule_idx_to hr
      simp only [hok, if_true]
      exact ⟨List.chain'_cons.mpr ⟨step1, List.chain'_cons.mpr ⟨step2, List.chain'_singleton _⟩⟩, rfl⟩
    · simp only [Bool.not_eq_true] at hok
      simp only [hok, Bool.false_eq_true, if_false]
      exact ⟨List.chain'_cons.mpr ⟨step1, List.chain'_singleton _⟩, rfl⟩

theorem chain_process_jobs {rs : List (StageRule × Bool)} {s : Store}
    (hrs : ∀ p ∈ rs, p.1 ∈ stage_rules) (hsort : IdsStrictSorted s) :
    List.Chain' StepOK (s :: (process_jobs rs s).1) ∧
      (process_jobs rs s).1.getLastD s = (process_jobs rs s).2 ∧
      (process_jobs rs s).2.map (fun j => j.id) = s.map (fun j => j.id) := by
  induction rs generalizing s with
  | nil => exact ⟨List.chain'_singleton s, rfl, rfl⟩
  | cons p rest ih =>
    obtain ⟨r, ok⟩ := p
    have hr : r ∈ stage_rules := hrs (r, ok) (List.mem_cons_self _ _)
    obtain ⟨hc1, hl1⟩ := @chain_runRule r ok s hr hsort
    have hids1 := ids_runRule r ok s
    have hsort1 : IdsStrictSorted (runRule r ok s).store := sorted_of_ids_eq hids1 hsort
    unfold process_jobs
    by_cases hok : (runRule r ok s).ok = true
    · obtain ⟨hc2, hl2, hids2⟩ :=
        ih (fun q hq => hrs q (List.mem_cons_of_mem _ hq)) hsort1
      simp only [hok, if_true]
      refine ⟨chain'_cons_append hc1 (by rw [hl1]) hc2, ?_, ?_⟩
      · rw [getLastD_append_eq, hl1]
        exact hl2
      · rw [hids2, hids1]
    · simp only [Bool.not_eq_true] at hok
      simp only [hok, Bool.false_eq_true, if_false]
      exact ⟨hc1, hl1, hids1⟩

/-! ## Preservation of `NoDA` -/

theorem noDA_update {s : Store} {jid : Nat} {st : JobState}
    (hda : NoDA s) (hst : st ≠ .DOCKERFILE_ADDED) :
    NoDA (update_job_state s jid st) := by
  intro k hk
  by_cases hid : k.id = jid
  · rw [state_of_mem_update hk hid]
    exact hst
  · exact hda k (of_mem_update_ne hk hid)

/-- After promoting one job of a `DOCKERFILE_ADDED`-free store to
`DOCKERFILE_ADDED` (via an intermediate state), every job in that state
carries the promoted id. -/
theorem da_only_at_promoted {s : Store} {i : Nat} {st1 : JobState}
    (hda : NoDA s) :
    ∀ k ∈ update_job_state (update_job_state s i st1) i .DOCKERFILE_ADDED,
      k.state = .DOCKERFILE_ADDED → k.id = i := by
  intro k hk hkda
  by_cases hid : k.id = i
  · exact hid
  · have hk1 := of_mem_update_ne hk hid
    have hk0 := of_mem_update_ne hk1 hid
    exact absurd hkda (hda k hk0)

theorem noDA_update_of_da_only {s : Store} {i : Nat} {st : JobState}
    (h : ∀ k ∈ s, k.state = .DOCKERFILE_ADDED → k.id = i)
    (hst : st ≠ .DOCKERFILE_ADDED) :
    NoDA (update_job_state s i st) := by
  intro k hk
  by_cases hid : k.id = i
  · rw [state_of_mem_update hk hid]
    exact hst
  · intro hkda
    exact hid (h k (of_mem_update_ne hk hid) hkda)

/-- The promoted job is findable in `DOCKERFILE_ADDED`, and any job found
there has the promoted id. -/
theorem find_da_after_promote {s : Store} {j : TrainArchiveJob}
    (hda : NoDA s) (hj : j ∈ s) :
    ∃ y, findFirst
        (update_job_state (update_job_state s j.id .DOCKERFILE_BEING_ADDED) j.id .DOCKERFILE_ADDED)
        .DOCKERFILE_ADDED = some y ∧ y.id = j.id := by
  have hmem1 : ({ j with state := .DOCKERFILE_BEING_ADDED } : TrainArchiveJob) ∈
      update_job_state s j.id .DOCKERFILE_BEING_ADDED := mem_update_set hj rfl
  have hmem2 := @mem_update_set _ _ _ .DOCKERFILE_ADDED hmem1 rfl
  cases hfind : findFirst
      (update_job_state (update_job_state s j.id .DOCKERFILE_BEING_ADDED) j.id .DOCKERFILE_ADDED)
      .DOCKERFILE_ADDED with
  | none => exact absurd hfind (findFirst_isSome hmem2 rfl)
  | some y =>
    obtain ⟨hymem, hyst⟩ := findFirst_sound hfind
    exact ⟨y, rfl, da_only_at_promoted hda y hymem hyst⟩

/-! ## Explicit tick equations

The four shapes one `background_job` tick can take, as equations on the
snapshot list and the final store; the projection equalities for the two
configured rules make the rewriting syntactic. -/

theorem adr_from : add_dockerfile_rule.from_state = .TAR_SAVED := rfl

theorem adr_while : add_dockerfile_rule.while_state = .DOCKERFILE_BEING_ADDED := rfl

theorem adr_to : add_dockerfile_rule.to_state = .DOCKERFILE_ADDED := rfl

theorem btr_from : build_train_rule.from_state = .DOCKERFILE_ADDED := rfl

theorem btr_while : build_train_rule.while_state = .TRAIN_BEING_CREATED := rfl

theorem btr_to : build_train_rule.to_state = .TRAIN_SUBMITTED := rfl

/-- No job awaits the dockerfile stage and none awaits the build stage:
the tick is a no-op. -/
theorem tick_noop {s : Store} (ok1 ok2 : Bool)
    (h1 : findFirst s .TAR_SAVED = none)
    (h2 : findFirst s .DOCKERFILE_ADDED = none) :
    background_job ok1 ok2 s = ([], s) := by
  simp [background_job, process_jobs, runRule, adr_from, btr_from, h1, h2]

/-- No job awaits the dockerfile stage; the build rule picks up `y`. -/
theorem tick_rule2_only {s : Store} {y : TrainArchiveJob} (ok1 ok2 : Bool)
    (h1 : findFirst s .TAR_SAVED = none)
    (h2 : findFirst s .DOCKERFILE_ADDED = some y) :
    background_job ok1 ok2 s =
      if ok2 then
        ([update_job_state s y.id .TRAIN_BEING_CREATED,
          update_job_state (update_job_state s y.id .TRAIN_BEING_CREATED) y.id .TRAIN_SUBMITTED],
         update_job_state (update_job_state s y.id .TRAIN_BEING_CREATED) y.id .TRAIN_SUBMITTED)
      else
        ([update_job_state s y.id .TRAIN_BEING_CREATED],
         update_job_state s y.id .TRAIN_BEING_CREATED) := by
  cases ok2 <;>
    simp [background_job, process_jobs, runRule, adr_from, btr_from, btr_while, btr_to, h1, h2]

/-- The dockerfile rule selects `j` and its processor fails: the tick
stops with `j` parked in the in-flight state. -/
theorem tick_rule1_fail {s : Store} {j : TrainArchiveJob} (ok2 : Bool)
    (h1 : findFirst s .TAR_SAVED = some j) :
    background_job false ok2 s =
      ([update_job_state s j.id .DOCKERFILE_BEING_ADDED],
       update_job_state s j.id .DOCKERFILE_BEING_ADDED) := by
  simp [background_job, process_jobs, runRule, adr_from, adr_while, h1]

/-- The dockerfile rule selects `j` and succeeds; the build rule then
finds `y` (necessarily the freshly promoted job when the tick started
without `DOCKERFILE_ADDED` jobs). -/
theorem tick_rule1_ok {s : Store} {j y : TrainArchiveJob} (ok2 : Bool)
    (h1 : findFirst s .TAR_SAVED = some j)
    (h2 : findFirst
        (update_job_state (update_job_state s j.id .DOCKERFILE_BEING_ADDED) j.id .DOCKERFILE_ADDED)
        .DOCKERFILE_ADDED = some y) :
    background_job true ok2 s =
      (let s2 := update_job_state (update_job_state s j.id .DOCKERFILE_BEING_ADDED)
          j.id .DOCKERFILE_ADDED
      if ok2 then
        ([update_job_state s j.id .DOCKERFILE_BEING_ADDED, s2,
          update_job_state s2 y.id .TRAIN_BEING_CREATED,
          update_job_state (update_job_state s2 y.id .TRAIN_BEING_CREATED) y.id .TRAIN_SUBMITTED],
         update_job_state (update_job_state s2 y.id .TRAIN_BEING_CREATED) y.id .TRAIN_SUBMITTED)
      else
        ([update_job_state s j.id .DOCKERFILE_BEING_ADDED, s2,
          update_job_state s2 y.id .TRAIN_BEING_CREATED],
         update_job_state s2 y.id .TRAIN_BEING_CREATED)) := by
  cases ok2 <;>
    simp [background_job, process_jobs, runRule, adr_from, adr_while, adr_to,
      btr_from, btr_while, btr_to, h1, h2]

theorem noDA_tick {s : Store} (ok1 ok2 : Bool) (hda : NoDA s) :
    NoDA (background_job ok1 ok2 s).2 := by
  cases h1 : findFirst s .TAR_SAVED with
  | none =>
    cases h2 : findFirst s .DOCKERFILE_ADDED with
    | none => rw [tick_noop ok1 ok2 h1 h2]; exact hda
    | some y =>
      obtain ⟨hymem, hyst⟩ := findFirst_sound h2
      exact absurd hyst (hda y hymem)
  | some j =>
    obtain ⟨hjmem, hjst⟩ := findFirst_sound h1
    cases ok1 with
    | false =>
      rw [tick_rule1_fail ok2 h1]
      exact noDA_update hda (by decide)
    | true =>
      obtain ⟨y, hy, hyid⟩ := find_da_after_promote hda hjmem
      have hdaonly := @da_only_at_promoted s j.id .DOCKERFILE_BEING_ADDED hda
      rw [tick_rule1_ok ok2 h1 hy]
      cases ok2 with
      | false =>
        simp only [if_false, Bool.false_eq_true]
        rw [hyid]
        exact noDA_update_of_da_only hdaonly (by decide)
      | true =>
        simp only [if_true]
        rw [hyid]
        refine noDA_update ?_ (by decide)
        exact noDA_update_of_da_only hdaonly (by decide)

/-! ## Intake and whole-operation lemmas -/

theorem index_ok {db : DB} {req : IntakeRequest} {save_ok : Bool} (h : Inv db) :
    Inv (index req save_ok db).db ∧
      List.Chain' StepOK (db.store :: (index req save_ok db).snaps) ∧
      (index req save_ok db).snaps.getLastD db.store = (index req save_ok db).db.store := by
  obtain ⟨hsort, hbel, hda⟩ := h
  unfold index
  by_cases hf : req.has_file_field = false
  · rw [if_pos hf]
    exact ⟨⟨hsort, hbel, hda⟩, List.chain'_singleton _, rfl⟩
  · rw [if_neg hf]
    by_cases hne : req.filename ≠ ""
    · rw [if_pos hne, if_neg hne]
      by_cases hT : allowed_file req.filename "tar" = true
      · rw [if_pos hT]
        -- the accepted-upload branch: create_job, save, advance to TAR_SAVED
        have hfresh : ∀ k ∈ db.store, k.id ≠ db.next_id :=
          fun k hk => Nat.ne_of_lt (hbel k hk)
        set new : TrainArchiveJob :=
          { id := db.next_id
            job_directory := TAR_FILEPATH
            file_name := create_job_name req.filename
            state := .JOB_SUBMTTED } with hnew
        have hsort1 : IdsStrictSorted (db.store ++ [new]) := by
          unfold IdsStrictSorted at hsort ⊢
          refine List.pairwise_append.mpr ⟨hsort, List.pairwise_singleton _ _, ?_⟩
          intro a ha b hb
          rw [List.mem_singleton.mp hb, hnew]
          exact hbel a ha
        have hbel1 : IdsBelow (db.store ++ [new]) (db.next_id + 1) := by
          intro k hk
          rcases List.mem_append.mp hk with hks | hkn
          · exact Nat.lt_succ_of_lt (hbel k hks)
          · rw [List.mem_singleton.mp hkn, hnew]
            exact Nat.lt_succ_self _
        have hda1 : NoDA (db.store ++ [new]) := by
          intro k hk
          rcases List.mem_append.mp hk with hks | hkn
          · exact hda k hks
          · rw [List.mem_singleton.mp hkn, hnew]
            simp
        have step1 : StepOK db.store (db.store ++ [new]) :=
          stepOK_append (ids_nodup hsort) hfresh
        cases save_ok with
        | false =>
          refine ⟨⟨hsort1, hbel1, hda1⟩, ?_, rfl⟩
          exact List.chain'_cons.mpr ⟨step1, List.chain'_singleton _⟩
        | true =>
          have step2 : StepOK (db.store ++ [new])
              (update_job_state (db.store ++ [new]) new.id .TAR_SAVED) := by
            refine stepOK_update (ids_nodup hsort1) fun k hk hkid => ?_
            rcases List.mem_append.mp hk with hks | hkn
            · exact absurd hkid (hfresh k hks)
            · rw [List.mem_singleton.mp hkn, hnew]
              rfl
          refine ⟨⟨sorted_update hsort1,
            below_of_ids_eq (ids_update _ _ _) hbel1,
            noDA_update hda1 (by decide)⟩, ?_, rfl⟩
          exact List.chain'_cons.mpr ⟨step1, List.chain'_cons.mpr ⟨step2, List.chain'_singleton _⟩⟩
      · rw [if_neg hT]
        exact ⟨⟨hsort, hbel, hda⟩, List.chain'_singleton _, rfl⟩
    · rw [if_neg hne]
      exact ⟨⟨hsort, hbel, hda⟩, List.chain'_singleton _, rfl⟩

theorem runOp_ok {db : DB} {op : SysOp} (h : Inv db) :
    Inv (runOp db op).1 ∧
      List.Chain' StepOK (db.store :: (runOp db op).2) ∧
      (runOp db op).2.getLastD db.store = (runOp db op).1.store := by
  cases op with
  | intake req save_ok => exact index_ok h
  | tick ok1 ok2 =>
    obtain ⟨hsort, hbel, hda⟩ := h
    have hrs : ∀ p ∈ [(add_dockerfile_rule, ok1), (build_train_rule, ok2)],
        p.1 ∈ stage_rules := by
      intro p hp
      rcases List.mem_cons.mp hp with rfl | hp'
      · simp [stage_rules]
      · rw [List.mem_singleton.mp hp']
        simp [stage_rules]
    obtain ⟨hc, hl, hids⟩ := chain_process_jobs hrs hsort
    refine ⟨⟨sorted_of_ids_eq hids hsort, below_of_ids_eq hids hbel, ?_⟩, hc, hl⟩
    exact noDA_tick ok1 ok2 hda

theorem runOps_ok (ops : List SysOp) :
    ∀ db, Inv db →
      Inv (runOps db ops).1 ∧
        List.Chain' StepOK (db.store :: (runOps db ops).2) ∧
        (runOps db ops).2.getLastD db.store = (runOps db ops).1.store := by
  induction ops with
  | nil => exact fun db h => ⟨h, List.chain'_singleton _, rfl⟩
  | cons op rest ih =>
    intro db h
    obtain ⟨h1inv, h1c, h1l⟩ := @runOp_ok db op h
    obtain ⟨h2inv, h2c, h2l⟩ := ih (runOp db op).1 h1inv
    refine ⟨h2inv, ?_, ?_⟩
    · exact chain'_cons_append h1c h1l h2c
    · rw [show (runOps db (op :: rest)).2 = (runOp db op).2 ++ (runOps (runOp db op).1 rest).2
        from rfl]
      rw [getLastD_append_eq, h1l, h2l]
      rfl

theorem inv_runDB (ops : List SysOp) : Inv (runDB ops) :=
  (runOps_ok ops initDB inv_initDB).1

/-- C1: for every sequence of intake and scheduler-tick operations
(processor and save failures included), consecutive persisted stores are
related by `StepOK`: every job's state either stays or moves to the
immediate successor in the fixed six-state order, so no reachable state
trace of a job skips a state or reverses. -/
theorem C1_state_trace_monotone (ops : List SysOp) :
    List.Chain' StepOK (traceStores ops) :=
  (runOps_ok ops initDB inv_initDB).2.1

/-! ## Jobs parked in an in-flight state stay there -/

def store_state (s : Store) (jid : Nat) : Option JobState :=
  (s.find? (fun j => j.id = jid)).map (fun j => j.state)

theorem jobStateAt_def (db : DB) (jid : Nat) :
    jobStateAt db jid = store_state db.store jid := rfl

theorem find_id_map {s : Store} {jid : Nat} {f : TrainArchiveJob → TrainArchiveJob}
    (hf : ∀ j, (f j).id = j.id) :
    (s.map f).find? (fun j => j.id = jid) =
      (s.find? (fun j => j.id = jid)).map f := by
  induction s with
  | nil => rfl
  | cons a t ih =>
    simp only [List.map_cons, List.find?_cons, hf a]
    by_cases ha : a.id = jid
    · simp [ha]
    · simp [ha, ih]

theorem store_state_update_ne {s : Store} {tid jid : Nat} {st : JobState}
    (hne : tid ≠ jid) :
    store_state (update_job_state s tid st) jid = store_state s jid := by
  unfold store_state update_job_state
  rw [find_id_map (fun j => by by_cases h : j.id = tid <;> simp [h])]
  cases hf : s.find? (fun j => j.id = jid) with
  | none => rfl
  | some j0 =>
    have hj0 : j0.id = jid := by simpa using List.find?_some hf
    have : ¬ j0.id = tid := by
      rw [hj0]
      exact fun h => hne h.symm
    simp [this]

theorem store_state_append {s l2 : Store} {jid : Nat}
    (h : store_state s jid ≠ none) :
    store_state (s ++ l2) jid = store_state s jid := by
  unfold store_state at h ⊢
  rw [List.find?_append]
  cases hf : s.find? (fun j => j.id = jid) with
  | none => rw [hf] at h; exact absurd rfl h
  | some j0 => rfl

theorem store_state_found {s : Store} {jid : Nat} {st : JobState}
    (h : store_state s jid = some st) :
    ∃ y ∈ s, y.id = jid ∧ y.state = st := by
  unfold store_state at h
  cases hf : s.find? (fun j => j.id = jid) with
  | none => rw [hf] at h; cases h
  | some y =>
    rw [hf] at h
    refine ⟨y, List.mem_of_find?_eq_some hf, by simpa using List.find?_some hf, ?_⟩
    simpa using h

theorem store_state_runRule {s : Store} {jid : Nat} {st : JobState}
    {r : StageRule} {ok : Bool}
    (hnd : (s.map (fun j => j.id)).Nodup)
    (h : store_state s jid = some st) (hne : st ≠ r.from_state) :
    store_state (runRule r ok s).store jid = some st := by
  unfold runRule
  cases hfind : findFirst s r.from_state with
  | none => exact h
  | some j =>
    obtain ⟨hjmem, hjst⟩ := findFirst_sound hfind
    obtain ⟨y, hymem, hyid, hyst⟩ := store_state_found h
    have hjne : j.id ≠ jid := by
      intro he
      have hjy : j = y := eq_of_mem_of_id_eq hnd hjmem hymem (by rw [he, hyid])
      rw [hjy, hyst] at hjst
      exact hne hjst
    cases ok with
    | true =>
      simp only [if_true]
      rw [store_state_update_ne hjne, store_state_update_ne hjne]
      exact h
    | false =>
      simp only [Bool.false_eq_true, if_false]
      rw [store_state_update_ne hjne]
      exact h

theorem store_state_process_jobs {rs : List (StageRule × Bool)} {s : Store}
    {jid : Nat} {st : JobState}
    (hnd : (s.map (fun j => j.id)).Nodup)
    (h : store_state s jid = some st)
    (hne : ∀ p ∈ rs, st ≠ p.1.from_state) :
    store_state (process_jobs rs s).2 jid = some st := by
  induction rs generalizing s with
  | nil => exact h
  | cons p rest ih =>
    obtain ⟨r, ok⟩ := p
    have hs1 := @store_state_runRule s jid st r ok hnd h
      (hne (r, ok) (List.mem_cons_self _ _))
    have hnd1 : ((runRule r ok s).store.map (fun j => j.id)).Nodup := by
      rw [ids_runRule]; exact hnd
    unfold process_jobs
    by_cases hok : (runRule r ok s).ok = true
    · simp only [hok, if_true]
      exact ih hnd1 hs1 (fun q hq => hne q (List.mem_cons_of_mem _ hq))
    · simp only [Bool.not_eq_true] at hok
      simp only [hok, Bool.false_eq_true, if_false]
      exact hs1

theorem stuck_runOp {db : DB} {op : SysOp} {jid : Nat} {st : JobState}
    (hinv : Inv db)
    (hst : st = .DOCKERFILE_BEING_ADDED ∨ st = .TRAIN_BEING_CREATED)
    (h : store_state db.store jid = some st) :
    store_state (runOp db op).1.store jid = some st := by
  obtain ⟨hsort, hbel, hda⟩ := hinv
  cases op with
  | tick ok1 ok2 =>
    refine store_state_process_jobs (ids_nodup hsort) h ?_
    intro p hp
    rcases List.mem_cons.mp hp with rfl | hp'
    · rcases hst with rfl | rfl <;> simp [adr_from]
    · rw [List.mem_singleton.mp hp']
      rcases hst with rfl | rfl <;> simp [btr_from]
  | intake req save_ok =>
    show store_state (index req save_ok db).db.store jid = some st
    obtain ⟨y, hymem, hyid, _⟩ := store_state_found h
    have hjlt : jid < db.next_id := hyid ▸ hbel y hymem
    have hjne : db.next_id ≠ jid := fun he => Nat.lt_irrefl _ (he ▸ hjlt)
    unfold index
    by_cases hf : req.has_file_field = false
    · rw [if_pos hf]; exact h
    · rw [if_neg hf]
      by_cases hne : req.filename ≠ ""
      · rw [if_pos hne, if_neg hne]
        by_cases hT : allowed_file req.filename "tar" = true
        · rw [if_pos hT]
          have happ : store_state (db.store ++
              [{ id := db.next_id, job_directory := TAR_FILEPATH,
                 file_name := create_job_name req.filename,
                 state := .JOB_SUBMTTED }]) jid = some st := by
            rw [store_state_append (by rw [h]; exact fun hc => Option.noConfusion hc)]
            exact h
          cases save_ok with
          | true =>
            show store_state (update_job_state _ db.next_id .TAR_SAVED) jid = some st
            rw [store_state_update_ne hjne]
            exact happ
          | false => exact happ
        · rw [if_neg hT]; exact h
      · rw [if_neg hne]; exact h

theorem stuck_runOps {ops : List SysOp} {db : DB} {jid : Nat} {st : JobState}
    (hinv : Inv db)
    (hst : st = .DOCKERFILE_BEING_ADDED ∨ st = .TRAIN_BEING_CREATED)
    (h : store_state db.store jid = some st) :
    store_state (runOps db ops).1.store jid = some st := by
  induction ops generalizing db with
  | nil => exact h
  | cons op rest ih =>
    exact ih (runOp_ok hinv).1 (stuck_runOp hinv hst h)

theorem runOps_append_fst (db : DB) (l1 l2 : List SysOp) :
    (runOps db (l1 ++ l2)).1 = (runOps (runOps db l1).1 l2).1 := by
  induction l1 generalizing db with
  | nil => rfl
  | cons op rest ih => exact ih (runOp db op).1

/-- C2: a job that a tick has moved into an in-flight state whose
processor then failed (leaving it there at the end of the tick) keeps
exactly that in-flight state under every further operation: no rollback to
the rule's from-state, no failure state, no further advance. -/
theorem C2_failed_job_stays_in_flight (ops1 ops2 : List SysOp) (jid : Nat) (st : JobState)
    (hst : st = .DOCKERFILE_BEING_ADDED ∨ st = .TRAIN_BEING_CREATED)
    (h : jobStateAt (runDB ops1) jid = some st) :
    jobStateAt (runDB (ops1 ++ ops2)) jid = some st := by
  rw [jobStateAt_def] at h ⊢
  show store_state (runOps initDB (ops1 ++ ops2)).1.store jid = some st
  rw [runOps_append_fst]
  exact stuck_runOps (inv_runDB ops1) hst h

/-- Concrete instance of `C2_failed_job_stays_in_flight`: after an intake
and a tick whose dockerfile processor fails, job 1 sits at
`DOCKERFILE_BEING_ADDED` and a further (fully successful) tick and intake
leave it there. -/
theorem C2_witness :
    jobStateAt (runDB [.intake { has_file_field := true, filename := "a.tar" } true,
        .tick false true]) 1 = some .DOCKERFILE_BEING_ADDED ∧
      jobStateAt (runDB ([.intake { has_file_field := true, filename := "a.tar" } true,
          .tick false true] ++
        [.tick true true, .intake { has_file_field := true, filename := "b.tar" } true])) 1 =
        some .DOCKERFILE_BEING_ADDED :=
  ⟨by decide, C2_failed_job_stays_in_flight _ _ 1 .DOCKERFILE_BEING_ADDED (Or.inl rfl)
    (by decide)⟩

/-- C5: on every reachable store, `first()` on a state returns the
matching job with the smallest id when one exists; when it returns none,
no job has that state and the scheduler's rule with that from-state leaves
the store untouched (no snapshot, no mutation, loop continues). -/
theorem C5_findFirst_oldest_or_noop (ops : List SysOp) (st : JobState) :
    (∀ j, findFirst (runDB ops).store st = some j →
        j ∈ (runDB ops).store ∧ j.state = st ∧
          ∀ k ∈ (runDB ops).store, k.state = st → j.id ≤ k.id) ∧
    (findFirst (runDB ops).store st = none →
        (∀ k ∈ (runDB ops).store, k.state ≠ st) ∧
          ∀ (r : StageRule) (ok : Bool), r.from_state = st →
            runRule r ok (runDB ops).store =
              { snaps := [], store := (runDB ops).store, ok := true }) := by
  have hsort := (inv_runDB ops).1
  constructor
  · intro j hj
    obtain ⟨hmem, hst⟩ := findFirst_sound hj
    exact ⟨hmem, hst, findFirst_min hsort hj⟩
  · intro hnone
    refine ⟨findFirst_none hnone, ?_⟩
    intro r ok hfrom
    unfold runRule
    rw [hfrom, hnone]

/-- Concrete instance of `C5_findFirst_oldest_or_noop`: after two intakes
the query for `TAR_SAVED` returns job 1, the older of the two saved jobs. -/
theorem C5_witness :
    ({ id := 1, job_directory := "/tmp/jobs", file_name := "train_a_tar",
          state := .TAR_SAVED } : TrainArchiveJob) ∈
        (runDB [.intake { has_file_field := true, filename := "a.tar" } true,
          .intake { has_file_field := true, filename := "b.tar" } true]).store ∧
      ({ id := 1, job_directory := "/tmp/jobs", file_name := "train_a_tar",
            state := .TAR_SAVED } : TrainArchiveJob).state = .TAR_SAVED ∧
      ∀ k ∈ (runDB [.intake { has_file_field := true, filename := "a.tar" } true,
          .intake { has_file_field := true, filename := "b.tar" } true]).store,
        k.state = .TAR_SAVED →
          ({ id := 1, job_directory := "/tmp/jobs", file_name := "train_a_tar",
                state := .TAR_SAVED } : TrainArchiveJob).id ≤ k.id :=
  (C5_findFirst_oldest_or_noop
    [.intake { has_file_field := true, filename := "a.tar" } true,
      .intake { has_file_field := true, filename := "b.tar" } true] .TAR_SAVED).1
    _ (by decide)

/-- C9: when the dockerfile rule selects a job and its processor raises,
the tick ends immediately: the only persisted mutation is the selected
job's move to `DOCKERFILE_BEING_ADDED`, and in particular every job
waiting in `DOCKERFILE_ADDED` is still there untouched — the publish rule
was never evaluated in that tick. -/
theorem C9_processor_failure_skips_later_rules (s : Store) (ok2 : Bool)
    (j : TrainArchiveJob)
    (hnd : (s.map (fun k => k.id)).Nodup)
    (hfind : findFirst s .TAR_SAVED = some j) :
    background_job false ok2 s =
        ([update_job_state s j.id .DOCKERFILE_BEING_ADDED],
          update_job_state s j.id .DOCKERFILE_BEING_ADDED) ∧
      ∀ k ∈ s, k.state = .DOCKERFILE_ADDED → k ∈ (background_job false ok2 s).2 := by
  refine ⟨tick_rule1_fail ok2 hfind, ?_⟩
  intro k hk hkda
  rw [tick_rule1_fail ok2 hfind]
  obtain ⟨hjmem, hjst⟩ := findFirst_sound hfind
  have hkne : k.id ≠ j.id := by
    intro he
    rw [eq_of_mem_of_id_eq hnd hk hjmem he, hjst] at hkda
    cases hkda
  exact mem_update_of_ne hk hkne

/-- Concrete instance of `C9_processor_failure_skips_later_rules`. -/
theorem C9_witness :
    background_job false true
        [{ id := 1, job_directory := "/tmp/jobs", file_name := "train_a", state := .TAR_SAVED },
         { id := 2, job_directory := "/tmp/jobs", file_name := "train_b",
           state := .DOCKERFILE_ADDED }] =
      ([update_job_state
          [{ id := 1, job_directory := "/tmp/jobs", file_name := "train_a", state := .TAR_SAVED },
           { id := 2, job_directory := "/tmp/jobs", file_name := "train_b",
             state := .DOCKERFILE_ADDED }] 1 .DOCKERFILE_BEING_ADDED],
        update_job_state
          [{ id := 1, job_directory := "/tmp/jobs", file_name := "train_a", state := .TAR_SAVED },
           { id := 2, job_directory := "/tmp/jobs", file_name := "train_b",
             state := .DOCKERFILE_ADDED }] 1 .DOCKERFILE_BEING_ADDED) :=
  (C9_processor_failure_skips_later_rules _ true
    { id := 1, job_directory := "/tmp/jobs", file_name := "train_a", state := .TAR_SAVED }
    (by decide) (by decide)).1

/-- C6: on a reachable store holding exactly two jobs in the from-state of
a stage rule, one (successful) tick advances only the smaller-id job
through that rule: every record other than that job's is carried over
unchanged (in particular the larger-id job's record), the smaller-id job
ends at or beyond the rule's to-state, and some persisted snapshot of the
tick shows it in the rule's in-flight state — so at most one job enters an
in-flight state per stage per tick. -/
theorem C6_tick_advances_smallest_only (ops : List SysOp) (r : StageRule)
    (j1 j2 : TrainArchiveJob)
    (hr : r ∈ stage_rules)
    (h1 : j1 ∈ (runDB ops).store) (h2 : j2 ∈ (runDB ops).store)
    (hlt : j1.id < j2.id)
    (hst1 : j1.state = r.from_state) (hst2 : j2.state = r.from_state)
    (honly : ∀ k ∈ (runDB ops).store, k.state = r.from_state →
        k.id = j1.id ∨ k.id = j2.id) :
    (∀ k ∈ (background_job true true (runDB ops).store).2,
        k ∈ (runDB ops).store ∨ k.id = j1.id) ∧
      j2 ∈ (background_job true true (runDB ops).store).2 ∧
      (∃ k ∈ (background_job true true (runDB ops).store).2,
        k.id = j1.id ∧ r.to_state.idx ≤ k.state.idx) ∧
      (∃ u ∈ (background_job true true (runDB ops).store).1, ∃ k ∈ u,
        k.id = j1.id ∧ k.state = r.while_state) := by
  obtain ⟨hsort, hbel, hda⟩ := inv_runDB ops
  have hnd := ids_nodup hsort
  rcases (by simpa [stage_rules] using hr : r = add_dockerfile_rule ∨ r = build_train_rule)
      with rfl | rfl
  · -- the dockerfile rule; its from-state is TAR_SAVED
    rw [adr_from] at hst1 hst2 honly
    have hfind : findFirst (runDB ops).store .TAR_SAVED = some j1 := by
      cases hfind : findFirst (runDB ops).store .TAR_SAVED with
      | none => exact absurd hst1 (findFirst_none hfind j1 h1)
      | some y =>
        obtain ⟨hymem, hyst⟩ := findFirst_sound hfind
        have hymin := findFirst_min hsort hfind j1 h1 hst1
        rcases honly y hymem hyst with hy1 | hy2
        · rw [eq_of_mem_of_id_eq hnd hymem h1 hy1]
        · rw [hy2] at hymin
          exact absurd hymin (Nat.not_le_of_lt hlt)
    obtain ⟨y2, hy2find, hy2id⟩ := find_da_after_promote hda h1
    have htick := tick_rule1_ok true hfind hy2find
    simp only [if_true] at htick
    rw [hy2id] at htick
    have hne21 : j2.id ≠ j1.id := fun he => Nat.lt_irrefl _ (he ▸ hlt)
    rw [htick]
    refine ⟨?_, ?_, ?_, ?_⟩
    · intro k hk
      by_cases hkid : k.id = j1.id
      · exact Or.inr hkid
      · exact Or.inl (of_mem_update_ne (of_mem_update_ne
          (of_mem_update_ne (of_mem_update_ne hk hkid) hkid) hkid) hkid)
    · exact mem_update_of_ne (mem_update_of_ne
        (mem_update_of_ne (mem_update_of_ne h2 hne21) hne21) hne21) hne21
    · refine ⟨{ j1 with state := .TRAIN_SUBMITTED }, ?_, rfl, ?_⟩
      · have m1 := @mem_update_set _ _ _ .DOCKERFILE_BEING_ADDED h1 rfl
        have m2 := @mem_update_set _ _ _ .DOCKERFILE_ADDED m1 rfl
        have m3 := @mem_update_set _ _ _ .TRAIN_BEING_CREATED m2 rfl
        have m4 := @mem_update_set _ _ _ .TRAIN_SUBMITTED m3 rfl
        exact m4
      · show (3 : Nat) ≤ 5
        decide
    · refine ⟨update_job_state (runDB ops).store j1.id .DOCKERFILE_BEING_ADDED, ?_,
        { j1 with state := .DOCKERFILE_BEING_ADDED }, ?_, rfl, rfl⟩
      · exact List.mem_cons_self _ _
      · exact mem_update_set h1 rfl
  · -- the build rule: its from-state DOCKERFILE_ADDED is never occupied
    -- on a reachable store, contradicting the hypotheses
    rw [btr_from] at hst1
    exact absurd hst1 (hda j1 h1)

/-- Concrete instance of `C6_tick_advances_smallest_only`: two saved
uploads, one tick; only job 1 moves (all the way through both rules),
job 2's record is untouched. -/
theorem C6_witness :
    (∀ k ∈ (background_job true true
        (runDB [.intake { has_file_field := true, filename := "a.tar" } true,
          .intake { has_file_field := true, filename := "b.tar" } true]).store).2,
        k ∈ (runDB [.intake { has_file_field := true, filename := "a.tar" } true,
          .intake { has_file_field := true, filename := "b.tar" } true]).store ∨ k.id = 1) ∧
      ({ id := 2, job_directory := "/tmp/jobs", file_name := "train_b_tar",
            state := .TAR_SAVED } : TrainArchiveJob) ∈
        (background_job true true
          (runDB [.intake { has_file_field := true, filename := "a.tar" } true,
            .intake { has_file_field := true, filename := "b.tar" } true]).store).2 ∧
      (∃ k ∈ (background_job true true
          (runDB [.intake { has_file_field := true, filename := "a.tar" } true,
            .intake { has_file_field := true, filename := "b.tar" } true]).store).2,
        k.id = 1 ∧ add_dockerfile_rule.to_state.idx ≤ k.state.idx) ∧
      (∃ u ∈ (background_job true true
          (runDB [.intake { has_file_field := true, filename := "a.tar" } true,
            .intake { has_file_field := true, filename := "b.tar" } true]).store).1, ∃ k ∈ u,
        k.id = 1 ∧ k.state = add_dockerfile_rule.while_state) := by
  have h := C6_tick_advances_smallest_only
    [.intake { has_file_field := true, filename := "a.tar" } true,
      .intake { has_file_field := true, filename := "b.tar" } true]
    add_dockerfile_rule
    { id := 1, job_directory := "/tmp/jobs", file_name := "train_a_tar",
        state := .TAR_SAVED }
    { id := 2, job_directory := "/tmp/jobs", file_name := "train_b_tar",
        state := .TAR_SAVED }
    (by decide) (by decide) (by decide) (by decide) (by decide) (by decide) (by decide)
  exact h

/-- C7: `func2` asks the engine to build from the job's archive path with
the tag `<registry>/<canonicalName>:immediate` and then to push that same
tag; the tag is the fixed literal `immediate` with no per-job component,
so two jobs with equal canonical names get the identical registry tag. -/
theorem C7_publish_uses_single_fixed_tag (registry : String) (j1 j2 : TrainArchiveJob) :
    func2_calls registry j1 =
        .ok [.build j1.to_filepath (registry ++ "/" ++ j1.file_name ++ ":immediate"),
          .push (registry ++ "/" ++ j1.file_name ++ ":immediate")] ∧
      (j1.file_name = j2.file_name →
        pyFormat tag_template [registry, j1.file_name] =
          pyFormat tag_template [registry, j2.file_name]) := by
  have htag : ∀ n : String, pyFormat tag_template [registry, n] =
      .ok (registry ++ "/" ++ n ++ ":immediate") := by
    intro n
    have h1 : pyFormat tag_template [registry, n] =
        .ok ⟨registry.data ++ '/' :: (n.data ++ ":immediate".data)⟩ := rfl
    rw [h1]
    refine congrArg Except.ok (String.ext ?_)
    simp [String.data_append]
  constructor
  · unfold func2_calls
    rw [htag j1.file_name]
    rfl
  · intro hname
    rw [hname]

/-- Concrete instance of `C7_publish_uses_single_fixed_tag`. -/
theorem C7_witness :
    func2_calls "registry.example"
        { id := 1, job_directory := "/tmp/jobs", file_name := "train_x",
            state := .DOCKERFILE_ADDED } =
        .ok [.build "/tmp/jobs/1.tar" "registry.example/train_x:immediate",
          .push "registry.example/train_x:immediate"] ∧
      pyFormat tag_template ["registry.example", "train_x"] =
        pyFormat tag_template ["registry.example", "train_x"] := by
  have h := C7_publish_uses_single_fixed_tag "registry.example"
    { id := 1, job_directory := "/tmp/jobs", file_name := "train_x",
        state := .DOCKERFILE_ADDED }
    { id := 9, job_directory := "/tmp/jobs", file_name := "train_x",
        state := .DOCKERFILE_ADDED }
  exact ⟨by rw [h.1]; rfl, h.2 rfl⟩

/-- C8: adding the build descriptor to an archive of `N` entries yields
`N + 1` entries, leaves every original entry byte-for-byte in place, and
the single new entry is the descriptor under the fixed name
`Dockerfile`. -/
theorem C8_augment_adds_exactly_one_entry (dockerfile : List Nat) (archive : TarArchive) :
    (func1_add_dockerfile dockerfile archive).length = archive.length + 1 ∧
      (∀ i : Nat, i < archive.length →
        (func1_add_dockerfile dockerfile archive)[i]? = archive[i]?) ∧
      (func1_add_dockerfile dockerfile archive).getLast? =
        some { entry_name := "Dockerfile", content := dockerfile } := by
  refine ⟨by simp [func1_add_dockerfile], ?_, ?_⟩
  · intro i hi
    simp [func1_add_dockerfile, List.getElem?_append, hi]
  · simp [func1_add_dockerfile]

/-- Concrete instance of `C8_augment_adds_exactly_one_entry`. -/
theorem C8_witness :
    (func1_add_dockerfile [7, 8] [{ entry_name := "data.csv", content := [1, 2] }]).length =
        1 + 1 ∧
      (func1_add_dockerfile [7, 8] [{ entry_name := "data.csv", content := [1, 2] }])[0]? =
        [({ entry_name := "data.csv", content := [1, 2] } : TarEntry)][0]? ∧
      (func1_add_dockerfile [7, 8]
          [{ entry_name := "data.csv", content := [1, 2] }]).getLast? =
        some { entry_name := "Dockerfile", content := [7, 8] } := by
  have h := C8_augment_adds_exactly_one_entry [7, 8]
    [{ entry_name := "data.csv", content := [1, 2] }]
  exact ⟨h.1, h.2.1 0 (by decide), h.2.2⟩

/-- C10: the intake endpoint never produces the intended 201 failure
response: `failure`'s format template parses its outer braces as a
replacement field named `"success"`, so every rejected request (missing
`file` field, empty filename, non-`.tar` extension) raises `KeyError`
inside the handler instead of returning a response, while the accepted
path does return the 200 success response. -/
theorem C10_failure_branch_raises_keyerror :
    (index { has_file_field := false, filename := "x.tar" } true initDB).response =
        .error "KeyError: \"success\"" ∧
      (index { has_file_field := true, filename := "" } true initDB).response =
        .error "KeyError: \"success\"" ∧
      (index { has_file_field := true, filename := "notatar.txt" } true initDB).response =
        .error "KeyError: \"success\"" ∧
      (index { has_file_field := true, filename := "x.tar" } true initDB).response =
        .ok SUCCESS ∧
      SUCCESS.status = 200 ∧
      (failure "any message") = .error "KeyError: \"success\"" := by
  refine ⟨rfl, rfl, rfl, rfl, rfl, rfl⟩

/-- C4: normalizing the uploaded filename `"My Train!!.tar"` yields
`train_my_train_tar`, not `train_my_train`: by the time the
`endswith('.tar')` check runs, the dot has already been replaced by `_`
in the problem-character step, so the `.tar`-splitting branch never
fires; the publish tag for such a job is therefore
`<registry>/train_my_train_tar:immediate`. -/
theorem C4_tar_suffix_survives_normalization :
    create_job_name "My Train!!.tar" = "train_my_train_tar" ∧
      create_job_name "My Train!!.tar" ≠ "train_my_train" ∧
      func2_calls "registry.example"
          { id := 1, job_directory := TAR_FILEPATH,
              file_name := create_job_name "My Train!!.tar",
              state := .DOCKERFILE_ADDED } =
        .ok [.build "/tmp/jobs/1.tar" "registry.example/train_my_train_tar:immediate",
          .push "registry.example/train_my_train_tar:immediate"] := by
  refine ⟨rfl, by decide, rfl⟩

/-! ## Character facts for the normalization proofs -/

theorem allowed_char_cases {c : Char} (h : allowed_character c = true) :
    (97 ≤ c.toNat ∧ c.toNat ≤ 122) ∨ (48 ≤ c.toNat ∧ c.toNat ≤ 57) ∨
      c = '_' ∨ c = '-' := by
  simp only [allowed_character, is_ascii_lower, is_ascii_digit, Bool.or_eq_true,
    Bool.and_eq_true, decide_eq_true_eq] at h
  tauto

theorem allowed_toNat_facts {c : Char} (h : allowed_character c = true) :
    (97 ≤ c.toNat ∧ c.toNat ≤ 122) ∨ (48 ≤ c.toNat ∧ c.toNat ≤ 57) ∨
      c.toNat = 95 ∨ c.toNat = 45 := by
  rcases allowed_char_cases h with h' | h' | rfl | rfl
  · exact Or.inl h'
  · exact Or.inr (Or.inl h')
  · exact Or.inr (Or.inr (Or.inl rfl))
  · exact Or.inr (Or.inr (Or.inr rfl))

theorem ne_of_toNat_ne {c d : Char} (h : c.toNat ≠ d.toNat) : c ≠ d :=
  fun he => h (he ▸ rfl)

theorem allowed_lt_128 {c : Char} (h : allowed_character c = true) : c.toNat < 128 := by
  have := allowed_toNat_facts h
  omega

theorem allowed_ne_slash {c : Char} (h : allowed_character c = true) : c ≠ '/' := by
  refine ne_of_toNat_ne ?_
  show c.toNat ≠ 47
  have := allowed_toNat_facts h
  omega

theorem allowed_ne_dot {c : Char} (h : allowed_character c = true) : c ≠ '.' := by
  refine ne_of_toNat_ne ?_
  show c.toNat ≠ 46
  have := allowed_toNat_facts h
  omega

theorem allowed_not_ws {c : Char} (h : allowed_character c = true) :
    is_python_ws c = false := by
  have hf := allowed_toNat_facts h
  simp only [is_python_ws, decide_eq_false_iff_not]
  intro hmem
  simp only [List.mem_cons, List.not_mem_nil, or_false] at hmem
  omega

theorem allowed_py_lower {c : Char} (h : allowed_character c = true) :
    py_lower c = c := by
  unfold py_lower
  rw [if_neg]
  have := allowed_toNat_facts h
  omega

theorem allowed_regex_keep {c : Char} (h : allowed_character c = true) :
    regex_keep c = true := by
  rcases allowed_char_cases h with h' | h' | rfl | rfl
  · simp only [regex_keep, is_ascii_alpha, is_ascii_digit, Bool.or_eq_true,
      Bool.and_eq_true, decide_eq_true_eq]
    tauto
  · simp only [regex_keep, is_ascii_alpha, is_ascii_digit, Bool.or_eq_true,
      Bool.and_eq_true, decide_eq_true_eq]
    tauto
  · decide
  · decide

theorem allowed_not_dot_underscore {c : Char} (h : allowed_character c = true)
    (hu : c ≠ '_') : is_dot_or_underscore c = false := by
  simp only [is_dot_or_underscore, Bool.or_eq_false_iff, decide_eq_false_iff_not]
  exact ⟨allowed_ne_dot h, hu⟩

/-! ## Step-identity lemmas for already-canonical names -/

theorem filter_ascii_id {l : List Char} (h : ∀ c ∈ l, allowed_character c = true) :
    ascii_encode_ignore l = l := by
  unfold ascii_encode_ignore
  rw [List.filter_eq_self]
  intro a ha
  simpa using allowed_lt_128 (h a ha)

theorem replace_sep_id {l : List Char} (h : ∀ c ∈ l, allowed_character c = true) :
    replace_sep l = l := by
  unfold replace_sep
  have : l.map (fun c => if c = '/' then ' ' else c) = l.map id :=
    List.map_congr_left fun a ha => by rw [if_neg (allowed_ne_slash (h a ha))]; rfl
  rw [this, List.map_id]

theorem splitOnP_go_no_sat {p : Char → Bool} :
    ∀ (l acc : List Char), (∀ c ∈ l, p c = false) →
      List.splitOnP.go p l acc = [acc.reverse ++ l] := by
  intro l
  induction l with
  | nil => intro acc _; simp [List.splitOnP.go]
  | cons a t ih =>
    intro acc h
    have ha : p a = false := h a (List.mem_cons_self _ _)
    simp only [List.splitOnP.go, ha, Bool.false_eq_true, if_false]
    rw [ih (a :: acc) (fun c hc => h c (List.mem_cons_of_mem _ hc))]
    simp

theorem splitOnP_no_sat {p : Char → Bool} {l : List Char}
    (h : ∀ c ∈ l, p c = false) : List.splitOnP p l = [l] := by
  rw [show List.splitOnP p l = List.splitOnP.go p l [] from rfl]
  rw [splitOnP_go_no_sat l [] h]
  rfl

theorem underscore_join_id {l : List Char} (hne : l ≠ [])
    (h : ∀ c ∈ l, allowed_character c = true) : underscore_join l = l := by
  unfold underscore_join
  rw [splitOnP_no_sat (fun c hc => allowed_not_ws (h c hc))]
  rw [show ([l].filter (fun w => w ≠ [])) = [l] by simp [hne]]
  simp [List.intercalate]

theorem regex_strip_id {l : List Char} (h : ∀ c ∈ l, allowed_character c = true) :
    regex_strip l = l := by
  unfold regex_strip
  rw [List.filter_eq_self]
  exact fun a ha => allowed_regex_keep (h a ha)

theorem dropWhile_eq_self_of_head {α : Type} {p : α → Bool} {l : List α}
    (h : ∀ c, l.head? = some c → p c = false) : l.dropWhile p = l := by
  cases l with
  | nil => rfl
  | cons a t =>
    rw [List.dropWhile_cons, if_neg]
    rw [h a rfl]
    simp

theorem strip_dot_underscore_id {l : List Char}
    (hh : ∀ c, l.head? = some c → is_dot_or_underscore c = false)
    (hl : ∀ c, l.getLast? = some c → is_dot_or_underscore c = false) :
    strip_dot_underscore l = l := by
  unfold strip_dot_underscore
  rw [dropWhile_eq_self_of_head hh]
  rw [dropWhile_eq_self_of_head (fun c hc => hl c (by rwa [List.head?_reverse] at hc))]
  exact List.reverse_reverse l

theorem map_py_lower_id {l : List Char} (h : ∀ c ∈ l, allowed_character c = true) :
    l.map py_lower = l := by
  have : l.map py_lower = l.map id :=
    List.map_congr_left fun a ha => allowed_py_lower (h a ha)
  rw [this, List.map_id]

theorem replace_problem_chars_id {l : List Char}
    (h : ∀ c ∈ l, allowed_character c = true) : replace_problem_chars l = l := by
  unfold replace_problem_chars
  have : l.map (fun c => if allowed_character c then c else '_') = l.map id :=
    List.map_congr_left fun a ha => by rw [if_pos (h a ha)]; rfl
  rw [this, List.map_id]

theorem append_s_id {l : List Char} (h : l.getLast? ≠ some '_') :
    append_s_if_trailing_underscore l = l := by
  unfold append_s_if_trailing_underscore
  rw [if_neg h]

theorem no_dot_not_tar_suffix {l : List Char} (h : ∀ c ∈ l, c ≠ '.') :
    List.isSuffixOf ".tar".data l = false := by
  cases hb : List.isSuffixOf ".tar".data l with
  | false => rfl
  | true =>
    exfalso
    rw [List.isSuffixOf_iff_suffix] at hb
    obtain ⟨t, ht⟩ := hb
    exact h '.' (ht ▸ List.mem_append.mpr (Or.inr (by decide))) rfl

theorem strip_tar_suffix_id {l : List Char} (h : ∀ c ∈ l, c ≠ '.') :
    strip_tar_suffix l = l := by
  unfold strip_tar_suffix
  rw [no_dot_not_tar_suffix h]
  simp

theorem prepend_train_id {l : List Char}
    (h : List.isPrefixOf "train_".data l = true) : prepend_train l = l := by
  unfold prepend_train
  rw [if_pos h]

theorem isPrefixOf_append_left (p l : List Char) :
    List.isPrefixOf p (p ++ l) = true := by
  induction p with
  | nil => simp [List.isPrefixOf]
  | cons a t ih => simp [List.isPrefixOf, ih]

theorem exists_of_isPrefixOf {p l : List Char}
    (h : List.isPrefixOf p l = true) : ∃ t, l = p ++ t := by
  induction p generalizing l with
  | nil => exact ⟨l, rfl⟩
  | cons a t ih =>
    cases l with
    | nil => simp [List.isPrefixOf] at h
    | cons b bs =>
      simp only [List.isPrefixOf, Bool.and_eq_true, beq_iff_eq] at h
      obtain ⟨rfl, h'⟩ := h
      obtain ⟨u, hu⟩ := ih h'
      exact ⟨u, by rw [hu]; rfl⟩

/-! ## Shape of a normalized name -/

theorem replace_problem_chars_all (l : List Char) :
    ∀ ch ∈ replace_problem_chars l, allowed_character ch = true := by
  intro ch hch
  obtain ⟨a, _, ha⟩ := List.mem_map.mp hch
  by_cases h : allowed_character a = true
  · rw [← ha, if_pos h]
    exact h
  · rw [← ha, if_neg h]
    decide

theorem append_s_all {l : List Char} (h : ∀ ch ∈ l, allowed_character ch = true) :
    ∀ ch ∈ append_s_if_trailing_underscore l, allowed_character ch = true := by
  intro ch hch
  unfold append_s_if_trailing_underscore at hch
  by_cases hc : l.getLast? = some '_'
  · rw [if_pos hc] at hch
    rcases List.mem_append.mp hch with h1 | h2
    · exact h ch h1
    · rw [List.mem_singleton.mp h2]
      decide
  · rw [if_neg hc] at hch
    exact h ch hch

theorem append_s_getLast (l : List Char) :
    (append_s_if_trailing_underscore l).getLast? ≠ some '_' := by
  unfold append_s_if_trailing_underscore
  by_cases hc : l.getLast? = some '_'
  · rw [if_pos hc, List.getLast?_concat]
    simp
  · rw [if_neg hc]
    exact hc

theorem prepend_shape {c : List Char}
    (hcall : ∀ ch ∈ c, allowed_character ch = true)
    (hclast : c.getLast? ≠ some '_') :
    (∀ ch ∈ prepend_train c, allowed_character ch = true) ∧
      List.isPrefixOf "train_".data (prepend_train c) = true ∧
      (prepend_train c = "train_".data ∨ (prepend_train c).getLast? ≠ some '_') := by
  unfold prepend_train
  by_cases hp : List.isPrefixOf "train_".data c = true
  · rw [if_pos hp]
    exact ⟨hcall, hp, Or.inr hclast⟩
  · rw [if_neg hp]
    have htrain : ∀ ch ∈ "train_".data, allowed_character ch = true := by decide
    refine ⟨?_, isPrefixOf_append_left _ _, ?_⟩
    · intro ch hch
      rcases List.mem_append.mp hch with h1 | h2
      · exact htrain ch h1
      · exact hcall ch h2
    · cases hcc : c with
      | nil =>
        left
        simp
      | cons a t =>
        right
        rw [List.getLast?_append]
        cases hg : (a :: t).getLast? with
        | none => simp at hg
        | some g =>
          rw [Option.or_some]
          rw [hcc, hg] at hclast
          exact hclast

theorem normalize_shape (x : List Char) :
    (∀ ch ∈ normalize_chars x, allowed_character ch = true) ∧
      List.isPrefixOf "train_".data (normalize_chars x) = true ∧
      (normalize_chars x = "train_".data ∨ (normalize_chars x).getLast? ≠ some '_') := by
  unfold normalize_chars
  have hball := replace_problem_chars_all ((secure_filename x).map py_lower)
  have hcall := append_s_all hball
  have hclast := append_s_getLast (replace_problem_chars ((secure_filename x).map py_lower))
  rw [strip_tar_suffix_id (fun ch hch => allowed_ne_dot (hcall ch hch))]
  exact prepend_shape hcall hclast

/-- A canonical name whose sanitized core is non-empty (equivalently, one
different from the bare namespace token `train_`) is a fixed point of the
normalization. -/
theorem normalize_chars_idem {x : List Char}
    (hne : normalize_chars x ≠ "train_".data) :
    normalize_chars (normalize_chars x) = normalize_chars x := by
  obtain ⟨hall, hpre, hor⟩ := normalize_shape x
  have hlast : (normalize_chars x).getLast? ≠ some '_' := hor.resolve_left hne
  obtain ⟨t, hyt⟩ := exists_of_isPrefixOf hpre
  have hyne : normalize_chars x ≠ [] := by
    rw [hyt]
    simp
  have hhead : ∀ ch, (normalize_chars x).head? = some ch →
      is_dot_or_underscore ch = false := by
    intro ch hch
    rw [hyt, show (("train_".data ++ t).head? : Option Char) = some 't' from rfl] at hch
    rw [← Option.some.inj hch]
    decide
  have hgl : ∀ ch, (normalize_chars x).getLast? = some ch →
      is_dot_or_underscore ch = false := by
    intro ch hch
    have hmem : ch ∈ normalize_chars x := List.mem_of_mem_getLast? hch
    refine allowed_not_dot_underscore (hall ch hmem) ?_
    exact fun he => hlast (he ▸ hch)
  have hsec : secure_filename (normalize_chars x) = normalize_chars x := by
    unfold secure_filename
    rw [filter_ascii_id hall, replace_sep_id hall, underscore_join_id hyne hall,
      regex_strip_id hall, strip_dot_underscore_id hhead hgl]
  show prepend_train (strip_tar_suffix (append_s_if_trailing_underscore
      (replace_problem_chars ((secure_filename (normalize_chars x)).map py_lower)))) =
    normalize_chars x
  rw [hsec, map_py_lower_id hall, replace_problem_chars_id hall, append_s_id hlast,
    strip_tar_suffix_id (fun ch hch => allowed_ne_dot (hall ch hch)),
    prepend_train_id hpre]

/-- C3 counterexample: normalization is not idempotent on the empty
filename.  `create_job_name "" = "train_"`, whose second normalization is
`"train_train"`: `secure_filename` strips the trailing underscore, after
which the `train_` namespace check fails and the prefix is added again. -/
theorem C3_counterexample_empty_string :
    create_job_name (create_job_name "") ≠ create_job_name "" := by decide

/-- C3 (amended): normalization is a total function, and it is idempotent
for every input whose canonical name is not the bare namespace token
`train_` — that is, for every input whose sanitized core is non-empty.
(Inputs with an empty sanitized core, such as the empty string or strings
of only punctuation, normalize to `train_` and violate idempotence.) -/
theorem create_job_name_mk (s : String) :
    create_job_name s = String.mk (normalize_chars s.data) := rfl

theorem create_job_name_data (s : String) :
    (create_job_name s).data = normalize_chars s.data := by
  rw [create_job_name_mk]

theorem C3_normalize_idempotent_on_nonempty_core (x : String)
    (h : create_job_name x ≠ "train_") :
    create_job_name (create_job_name x) = create_job_name x := by
  have hl : normalize_chars x.data ≠ "train_".data := by
    intro he
    refine h (String.ext ?_)
    rw [create_job_name_data]
    exact he
  apply String.ext
  rw [create_job_name_data, create_job_name_data]
  exact normalize_chars_idem hl

/-- Concrete instance of `C3_normalize_idempotent_on_nonempty_core`. -/
theorem C3_witness :
    create_job_name "My Train!!.tar" ≠ "train_" ∧
      create_job_name (create_job_name "My Train!!.tar") =
        create_job_name "My Train!!.tar" :=
  ⟨by decide, C3_normalize_idempotent_on_nonempty_core "My Train!!.tar" (by decide)⟩
